import Mathlib

/-!
# Verification of the V2Display rendering and transfer core

Shallow embedding of the text-layout, glyph-rasterization and busy/idle
transfer logic of `src/V2Display.cpp` and the font access of `font/Font.h`.

Machine integers are modelled as `Nat` (or `Int` where the C code computes
in `int`), with explicit `% 2^w` reductions exactly where the C types
truncate.  The target platform is ARM (Cortex-M0+), where plain `char` is
unsigned, so string bytes are naturals `0 ≤ c ≤ 255`.
-/

namespace V2Display

/-- `__builtin_bswap16`: exchange the two bytes of a 16-bit value. -/
def bswap16 (c : Nat) : Nat := (c % 256) * 256 + (c / 256 % 256)

/-- `Display::row_size`: pixels per text line. -/
def row_size : Nat := 60

/-- `Display::baseline = row_size * 3 / 4`. -/
def baseline : Nat := row_size * 3 / 4

/-- `Font::Glyph` (font/Font.h): `offset : uint16_t`, `width height advance :
uint8_t`, `xStart yStart : int8_t`. -/
structure Glyph where
  offset : Nat
  width : Nat
  height : Nat
  advance : Nat
  xStart : Int
  yStart : Int

/-- Value of an `int8_t` cell holding the two's-complement image of `v`. -/
def int8 (v : Int) : Int := ((v + 128) % 256) - 128

/-- Reduce every field of a glyph record to the range of its C type; a glyph
read from a font table always satisfies these bounds. -/
def normGlyph (g : Glyph) : Glyph :=
  ⟨g.offset % 65536, g.width % 256, g.height % 256, g.advance % 256,
   int8 g.xStart, int8 g.yStart⟩

/-- `Font` (font/Font.h): a packed 1-bit bitmap blob (`bitmaps`, bytes) and a
glyph table (`glyphs`).  The table is modelled as a total function on `Int`
so that an out-of-range index (`getGlyph` performs `glyphs[c - 0x20]` with no
bound check) is expressible; only indices `0 ≤ i ≤ 94` (characters
`0x20 ..= 0x7e`) address real glyphs. -/
structure Font where
  bitmaps : Nat → Nat
  glyphs : Int → Glyph

/-- Index used by `Font::getGlyph`: `c - 0x20` where `c : uint8_t` is promoted
to `int`, so the subtraction is exact (it does not wrap). -/
def glyphIndex (c : Nat) : Int := (c : Int) - 0x20

/-- `Font::getGlyph(uint8_t c) = &glyphs[c - 0x20]`, with field values reduced
to their C-type ranges. -/
def Font.getGlyph (f : Font) (c : Nat) : Glyph := normGlyph (f.glyphs (glyphIndex c))

/-- Sum of glyph advances of a character list in a font. -/
def sumAdv (font : Font) (s : List Nat) : Nat :=
  (s.map fun c => (font.getGlyph c).advance).sum

/-- Loop body of `getTextWidth` (V2Display.cpp:194-223), processing the
remaining bytes with the accumulated 16-bit `width`, the `replaced` flag and
the filtered characters collected so far.  Note the source: in the
`c > 0x7f` branch the code sets `c = '#'; replaced = true;` and then
`continue`s, so the placeholder is never appended and never measured. -/
def getTextWidthAux (font : Font) : List Nat → Nat → Bool → List Nat → Nat × List Nat
  | [], width, _, text => (width, text)
  | c :: rest, width, replaced, text =>
    if c = 0 then (width, text)
    else if c < 20 then getTextWidthAux font rest width replaced text
    else if 0x7f < c then
      if replaced then getTextWidthAux font rest width replaced text
      else getTextWidthAux font rest width true text
    else
      getTextWidthAux font rest ((width + (font.getGlyph c).advance) % 65536) false
        (text ++ [c])

/-- `getTextWidth` (V2Display.cpp:194-223): returns the measured 16-bit width
and the filtered character sequence (`text[]`, `textLen`).  The input list
holds the first `len` bytes of the string. -/
def getTextWidth (s : List Nat) (font : Font) : Nat × List Nat :=
  getTextWidthAux font s 0 false []

/-- The offscreen pixel buffer, a map from cell index to 16-bit cell value. -/
def Buf : Type := Nat → Nat

/-- Store `v` at buffer index `i`. -/
def setPix (b : Buf) (i v : Nat) : Buf := fun j => if j = i then v else b j

/-- `Justify` (V2Display.h:24). -/
inductive Justify
  | Left
  | Center
  | Right

/-- The `_area` fields consumed by the rendering path (V2Display.h:141-149).
`x` and `row` only affect the window-select command, not the buffer. -/
structure Area where
  justify : Justify
  width : Nat
  foreground : Nat
  background : Nat
  cursor : Nat

/-- `initializeBuffer` (V2Display.cpp:139-143): fill the row band with the
byte-swapped background color. -/
def initializeBuffer (a : Area) (b : Buf) : Buf :=
  (List.range row_size).foldl
    (fun b y =>
      (List.range a.width).foldl
        (fun b x => setPix b (y * a.width + x) (bswap16 a.background)) b)
    b

/-- Per-pixel state of `renderChar` (V2Display.cpp:153-179): bitmap read
offset `o : uint16_t`, current byte `map : uint8_t`, pixel counter
`bit : uint8_t`, and the buffer. -/
structure RCState where
  o : Nat
  map : Nat
  bit : Nat
  buf : Buf

/-- One iteration of the inner loop of `renderChar`: reload `map` from the
bitmap blob every eighth pixel (`!(bit++ & 0x07)`), plot the pixel when the
top bit of `map` is set, then shift `map` left. -/
def renderCharStep (font : Font) (g : Glyph) (width x y color : Nat)
    (st : RCState) (iy ix : Nat) : RCState :=
  let mo := if st.bit % 8 = 0 then (font.bitmaps st.o % 256, (st.o + 1) % 65536)
            else (st.map, st.o)
  let buf1 :=
    if mo.1 / 128 % 2 = 1 then
      let px := (((x : Int) + g.xStart + ix) % 65536).toNat
      let py := (((y : Int) + g.yStart + iy) % 65536).toNat
      setPix st.buf (width * py + px) (bswap16 color)
    else st.buf
  ⟨mo.2, mo.1 * 2 % 256, (st.bit + 1) % 256, buf1⟩

/-- `renderChar` (V2Display.cpp:153-179): rasterize the glyph of `c` at
`(x, y)` into the buffer and return the glyph's advance. -/
def renderChar (buf : Buf) (font : Font) (width x y c color : Nat) : Buf × Nat :=
  let g := font.getGlyph c
  let st :=
    (List.range g.height).foldl
      (fun st iy =>
        (List.range g.width).foldl
          (fun st ix => renderCharStep font g width x y color st iy ix) st)
      ⟨g.offset, 0, 0, buf⟩
  (st.buf, g.advance)

/-- State touched by `drawChar`: the text area (cursor) and the buffer. -/
structure DState where
  area : Area
  buf : Buf

/-- `Display::drawChar` (V2Display.cpp:181-191), after the busy drain:
initialize the buffer when the cursor is zero, rasterize with the default
font and advance the 16-bit cursor. -/
def drawChar (fontDefault : Font) (st : DState) (c : Nat) : DState :=
  let buf0 := if st.area.cursor = 0 then initializeBuffer st.area st.buf else st.buf
  let r := renderChar buf0 fontDefault st.area.width st.area.cursor baseline c
    st.area.foreground
  ⟨{ st.area with cursor := (st.area.cursor + r.2) % 65536 }, r.1⟩

/-- `strlen` of a byte list representing a C string (bytes up to the first 0). -/
def strlen (s : List Nat) : Nat := (s.takeWhile fun c => c ≠ 0).length

/-- The trailing-whitespace loop of `print` (V2Display.cpp:250-251):
`while (s[len - 1] == ' ') len--;`.  Returns the final length and whether the
guard evaluated `s[len - 1]` with `len = 0` — an access to `s[-1]`, one byte
before the string (`len` is promoted to `int`, so the index is `-1`). -/
def stripTrailing (s : List Nat) : Nat → Nat × Bool
  | 0 => (0, true)
  | n + 1 => if s.getD n 0 = 32 then stripTrailing s n else (n + 1, false)

/-- Which of the three fonts the fallback in `print` selected. -/
inductive FontChoice
  | default
  | condensed
  | condensedSmall
deriving DecidableEq

/-- Result of the measurement/fallback phase of `print`. -/
structure Selection where
  choice : FontChoice
  font : Font
  width : Nat
  text : List Nat

/-- Font fallback of `print` (V2Display.cpp:253-269): measure with the
default font; if the width exceeds the area width re-measure with the
condensed font; if it still exceeds re-measure with the condensed-small
font. -/
def selectFont (fd fc fs : Font) (areaWidth : Nat) (t : List Nat) : Selection :=
  if areaWidth < (getTextWidth t fd).1 then
    if areaWidth < (getTextWidth t fc).1 then
      ⟨.condensedSmall, fs, (getTextWidth t fs).1, (getTextWidth t fs).2⟩
    else ⟨.condensed, fc, (getTextWidth t fc).1, (getTextWidth t fc).2⟩
  else ⟨.default, fd, (getTextWidth t fd).1, (getTextWidth t fd).2⟩

/-- Justification switch of `print` (V2Display.cpp:274-286), applied to the
clamped text width. -/
def justifyCursor (j : Justify) (areaWidth tw : Nat) : Nat :=
  match j with
  | .Left => 0
  | .Center => (areaWidth - tw) / 2
  | .Right => areaWidth - tw

/-- Render loop of `print` (V2Display.cpp:290-298): for each character stop
when `cursor + advance > area_width`, otherwise rasterize and advance the
16-bit cursor.  Returns the final cursor, the buffer and the list of
characters actually rendered. -/
def renderText (font : Font) (areaWidth color : Nat) :
    List Nat → Nat → Buf → List Nat → Nat × Buf × List Nat
  | [], cursor, buf, log => (cursor, buf, log)
  | c :: rest, cursor, buf, log =>
    let adv := (font.getGlyph c).advance
    if areaWidth < cursor + adv then (cursor, buf, log)
    else
      renderText font areaWidth color rest ((cursor + adv) % 65536)
        (renderChar buf font areaWidth cursor baseline c color).1 (log ++ [c])

/-- Observable outcome of `print(const char s[])` with a non-null string. -/
structure PrintResult where
  buf : Buf
  cursor : Nat
  oob : Bool
  rendered : List Nat
  flushed : Bool

/-- `Display::print(const char s[])` (V2Display.cpp:227-302) for a non-null
string, after the busy drain: `uint8_t len = strlen(s)` (truncated to a
byte), early return on zero, cap at 32, strip trailing spaces, measure with
font fallback, clamp the width, set the justification cursor, initialize the
buffer, render, reset the cursor and flush.  `oob` records whether the
stripping loop read before the string. -/
def printStr (fd fc fs : Font) (area : Area) (buf : Buf) (s : List Nat) :
    PrintResult :=
  let len0 := strlen s % 256
  if len0 = 0 then ⟨buf, area.cursor, false, [], false⟩
  else
    let len1 := if 32 < len0 then 32 else len0
    let stripped := stripTrailing s len1
    let sel := selectFont fd fc fs area.width (s.take stripped.1)
    let tw := if area.width < sel.width then area.width else sel.width
    let cursor0 := justifyCursor area.justify area.width tw
    let r := renderText sel.font area.width area.foreground sel.text cursor0
      (initializeBuffer area buf) []
    ⟨r.2.1, 0, stripped.2, r.2.2, true⟩

/-- Buffer-filling loop of `writeFillRectangle` (V2Display.cpp:111-125):
`len = min(width * height, hardware_width * row_size)` cells are set to the
byte-swapped color; the burst loop only transfers the buffer. -/
def writeFillRectangle (hwWidth : Nat) (buf : Buf) (width height color : Nat) :
    Buf :=
  let len := min (width * height) (hwWidth * row_size)
  (List.range len).foldl (fun b i => setPix b i (bswap16 color)) buf

/-- Micro-events of the busy/idle protocol: `drain` stands for the
`while (_busy) { yield(); loop(); }` wait (the loop exits only with
`_busy == false`), `bufWrite` for one mutation of the offscreen buffer, and
`setBusy` for `_busy = true` after a transfer is offloaded. -/
inductive Ev
  | drain
  | bufWrite
  | setBusy

/-- Caller-facing operations, with the number of buffer mutations the call
performs kept abstract. -/
inductive Op
  | printEmpty
  | print (writes : Nat)
  | drawChar (writes : Nat)
  | fillRect (writes : Nat)
  | loop (done : Bool)
  | reset (writes : Nat)

/-- Event trace of each operation, translated from the method bodies:
`print` drains, renders, drains again in `flushBuffer::prepareWrite` and
marks busy (V2Display.cpp:227-302); an empty string returns after the drain;
`drawChar` drains and renders (181-191); `fillRectangle` drains, drains again
in `prepareWrite`, fills and marks busy (127-136); `loop` clears busy only
when the transport has finished (58-67); `reset` forces `_busy = false` and
fills synchronously without marking busy (37-56). -/
def trace : Op → List Ev
  | .printEmpty => [.drain]
  | .print n => .drain :: (List.replicate n .bufWrite ++ [.drain, .setBusy])
  | .drawChar n => .drain :: List.replicate n .bufWrite
  | .fillRect n => .drain :: .drain :: (List.replicate n .bufWrite ++ [.setBusy])
  | .loop done => if done then [.drain] else []
  | .reset n => .drain :: List.replicate n .bufWrite

/-- Busy flag after executing a list of events. -/
def busyAfter : Bool → List Ev → Bool
  | b, [] => b
  | _, .drain :: r => busyAfter false r
  | b, .bufWrite :: r => busyAfter b r
  | _, .setBusy :: r => busyAfter true r

/-- `true` iff every `bufWrite` in the list executes with the busy flag
cleared. -/
def safeEvents : Bool → List Ev → Bool
  | _, [] => true
  | _, .drain :: r => safeEvents false r
  | b, .bufWrite :: r => !b && safeEvents b r
  | _, .setBusy :: r => safeEvents true r

/-- A font whose every glyph has advance 1 and an empty bitmap; used to
instantiate theorems at concrete inputs. -/
def sampleFont : Font := ⟨fun _ => 0, fun _ => ⟨0, 0, 0, 1, 0, 0⟩⟩

/-- A font whose every glyph has advance 50 and an empty bitmap. -/
def wideFont : Font := ⟨fun _ => 0, fun _ => ⟨0, 0, 0, 50, 0, 0⟩⟩

/-- A concrete text area: left-justified, 100 pixels wide. -/
def sampleArea : Area := ⟨.Left, 100, 7, 3, 0⟩

/-- An all-zero buffer. -/
def zeroBuf : Buf := fun _ => 0

theorem advance_getGlyph_lt (f : Font) (c : Nat) : (f.getGlyph c).advance < 256 := by
  simp only [Font.getGlyph, normGlyph]
  exact Nat.mod_lt _ (by norm_num)

theorem sumAdv_cons (font : Font) (c : Nat) (s : List Nat) :
    sumAdv font (c :: s) = (font.getGlyph c).advance + sumAdv font s := by
  simp [sumAdv]

theorem sumAdv_le (font : Font) (s : List Nat) : sumAdv font s ≤ 255 * s.length := by
  induction s with
  | nil => simp [sumAdv]
  | cons c rest ih =>
    rw [sumAdv_cons]
    have := advance_getGlyph_lt font c
    simp only [List.length_cons]
    omega

/-- On a list of printable bytes, the `getTextWidth` loop appends every byte
and accumulates every advance. -/
theorem getTextWidthAux_printable (font : Font) :
    ∀ (s : List Nat) (w : Nat) (r : Bool) (t : List Nat), w < 65536 →
      (∀ c ∈ s, 32 ≤ c ∧ c ≤ 126) →
      getTextWidthAux font s w r t = ((w + sumAdv font s) % 65536, t ++ s) := by
  intro s
  induction s with
  | nil =>
    intro w r t hw _
    simp [getTextWidthAux, sumAdv, Nat.mod_eq_of_lt hw]
  | cons c rest ih =>
    intro w r t hw h
    obtain ⟨hc1, hc2⟩ := h c (by simp)
    have h0 : ¬ c = 0 := by omega
    have h20 : ¬ c < 20 := by omega
    have h7f : ¬ 0x7f < c := by omega
    rw [getTextWidthAux, if_neg h0, if_neg h20, if_neg h7f,
      ih _ _ _ (Nat.mod_lt _ (by norm_num))
        (fun x hx => h x (List.mem_cons_of_mem _ hx)),
      sumAdv_cons]
    refine Prod.ext ?_ ?_
    · simp [Nat.mod_add_mod, Nat.add_assoc]
    · simp

/-- C7: for a string of printable characters the measured width is the plain
sum of glyph advances (the 16-bit accumulator cannot wrap: at most 255
characters of advance at most 255 each). -/
theorem printable_width_eq_sum_advances (font : Font) (s : List Nat)
    (hlen : s.length ≤ 255) (hp : ∀ c ∈ s, 32 ≤ c ∧ c ≤ 126) :
    (getTextWidth s font).1 = sumAdv font s := by
  rw [getTextWidth, getTextWidthAux_printable font s 0 false [] (by norm_num) hp]
  have := sumAdv_le font s
  simp only [Nat.zero_add]
  exact Nat.mod_eq_of_lt (by omega)

theorem printable_width_eq_sum_advances_witness :
    ([65, 66, 67] : List Nat).length ≤ 255 ∧
      (∀ c ∈ ([65, 66, 67] : List Nat), 32 ≤ c ∧ c ≤ 126) ∧
      (getTextWidth [65, 66, 67] sampleFont).1 = sumAdv sampleFont [65, 66, 67] :=
  ⟨by decide, by decide,
    printable_width_eq_sum_advances sampleFont [65, 66, 67] (by decide) (by decide)⟩

/-- C1: a maximal run of bytes above `0x7f` contributes nothing — no `'#'`
(byte 35) in the filtered sequence and no advance in the width.  The source
sets `c = '#'` and `replaced = true` but then `continue`s, so the placeholder
promised by the comment "Print a single '#' for a stream of UTF-8
characters" is never appended and never measured. -/
theorem highByte_run_yields_no_placeholder (font : Font) :
    getTextWidth [0xc3, 0xa9] font = (0, []) ∧
      (getTextWidth [65, 0xc3, 0xa9, 66] font).2 = [65, 66] := by
  constructor
  · rfl
  · rfl

/-- C9 counterexample: for byte 20 the index `c - 0x20` computed by
`Font::getGlyph` is `-12` — `c` is promoted to `int`, so the subtraction is
exact and negative, not a wrap-around to the unsigned-byte value 244. -/
theorem glyphIndex_not_unsigned_wrap :
    glyphIndex 20 = -12 ∧ glyphIndex 20 ≠ 244 ∧ ¬ 0 ≤ glyphIndex 20 := by
  refine ⟨by decide, by decide, by decide⟩

/-- C9 (amended): every byte `b` with `20 ≤ b ≤ 31` survives the `c < 20`
skip test of `getTextWidth`, is passed to `Font::getGlyph`, and the glyph
table index `b - 0x20` is negative — outside the valid index range `0 ..= 94`
(characters `0x20 ..= 0x7e`). -/
theorem control_range_bytes_read_out_of_table (font : Font) (b : Nat)
    (h1 : 20 ≤ b) (h2 : b ≤ 31) :
    (getTextWidth [b] font).2 = [b] ∧
      (getTextWidth [b] font).1 = (font.getGlyph b).advance ∧
      glyphIndex b < 0 := by
  have h0 : ¬ b = 0 := by omega
  have h20 : ¬ b < 20 := by omega
  have h7f : ¬ 0x7f < b := by omega
  have hadv := advance_getGlyph_lt font b
  refine ⟨?_, ?_, ?_⟩
  · rw [getTextWidth, getTextWidthAux, if_neg h0, if_neg h20, if_neg h7f]
    rfl
  · rw [getTextWidth, getTextWidthAux, if_neg h0, if_neg h20, if_neg h7f]
    show ((0 + (font.getGlyph b).advance) % 65536, _).1 = _
    simp only [Nat.zero_add]
    exact Nat.mod_eq_of_lt (by omega)
  · simp only [glyphIndex]
    omega

theorem control_range_bytes_read_out_of_table_witness :
    20 ≤ 20 ∧ 20 ≤ 31 ∧
      ((getTextWidth [20] sampleFont).2 = [20] ∧
        (getTextWidth [20] sampleFont).1 = (sampleFont.getGlyph 20).advance ∧
        glyphIndex 20 < 0) :=
  ⟨by decide, by decide,
    control_range_bytes_read_out_of_table sampleFont 20 (by decide) (by decide)⟩

/-- The stripping loop performs the out-of-bounds guard read whenever every
byte below the starting length is a space. -/
theorem stripTrailing_all_spaces (s : List Nat) :
    ∀ n, (∀ i < n, s.getD i 0 = 32) → (stripTrailing s n).2 = true := by
  intro n
  induction n with
  | zero => intro _; rfl
  | succ m ih =>
    intro h
    rw [stripTrailing, if_pos (h m (Nat.lt_succ_self m))]
    exact ih fun i hi => h i (Nat.lt_succ_of_lt hi)

set_option maxRecDepth 8192 in
/-- C10 counterexample: a string of 256 spaces is non-empty and its first
`min(strlen, 32)` bytes are all spaces, yet `uint8_t len = strlen(s)`
truncates 256 to 0, `print` returns early, and the stripping loop never reads
before the string. -/
theorem strip_loop_no_oob_at_256_spaces :
    List.replicate 256 (32 : Nat) ≠ [] ∧
      (∀ i < min 256 32, (List.replicate 256 (32 : Nat)).getD i 0 = 32) ∧
      (printStr sampleFont sampleFont sampleFont sampleArea zeroBuf
          (List.replicate 256 32)).oob = false := by
  refine ⟨by decide, by decide, ?_⟩
  rfl

/-- C10 (amended): for every string whose C-visible length `strlen` is
between 1 and 255 and whose first `min(strlen, 32)` bytes are all spaces, the
trailing-whitespace loop of `print` decrements the length to zero and then
evaluates `s[len - 1]` with `len = 0`, reading the byte before the string
(and, `len` being a `uint8_t`, a further spurious space would wrap it to
255). -/
theorem strip_loop_reads_before_string (fd fc fs : Font) (area : Area)
    (buf : Buf) (s : List Nat) (h1 : 1 ≤ strlen s) (h2 : strlen s ≤ 255)
    (h3 : ∀ i < min (strlen s) 32, s.getD i 0 = 32) :
    (printStr fd fc fs area buf s).oob = true := by
  have hmod : strlen s % 256 = strlen s := Nat.mod_eq_of_lt (by omega)
  have hne : ¬ strlen s % 256 = 0 := by omega
  rw [printStr]
  rw [hmod] at hne ⊢
  rw [if_neg hne]
  show (stripTrailing s (if 32 < strlen s then 32 else strlen s)).2 = true
  apply stripTrailing_all_spaces
  have heq : (if 32 < strlen s then 32 else strlen s) = min (strlen s) 32 := by
    split <;> omega
  rw [heq]
  exact h3

theorem strip_loop_reads_before_string_witness :
    1 ≤ strlen [32, 32, 32] ∧ strlen [32, 32, 32] ≤ 255 ∧
      (∀ i < min (strlen [32, 32, 32]) 32, ([32, 32, 32] : List Nat).getD i 0 = 32) ∧
      (printStr sampleFont sampleFont sampleFont sampleArea zeroBuf
          [32, 32, 32]).oob = true :=
  ⟨by decide, by decide, by decide,
    strip_loop_reads_before_string sampleFont sampleFont sampleFont sampleArea
      zeroBuf [32, 32, 32] (by decide) (by decide) (by decide)⟩

/-- The font actually addressed by a fallback choice. -/
def FontChoice.pick : FontChoice → Font → Font → Font → Font
  | .default, fd, _, _ => fd
  | .condensed, _, fc, _ => fc
  | .condensedSmall, _, _, fs => fs

/-- C3: the font fallback of `print` is the strict three-step escalation —
the default font is kept iff its measured width fits the area; the condensed
font is selected iff the default overflows and the condensed fits; the
condensed-small font is selected iff both wider fonts overflow (even when it
still overflows itself: rendering then proceeds and relies on the per-glyph
clip of the render loop).  The width and filtered text carried forward are
the ones measured with the selected font. -/
theorem font_fallback_three_step (fd fc fs : Font) (W : Nat) (t : List Nat) :
    ((selectFont fd fc fs W t).choice = .default ↔ (getTextWidth t fd).1 ≤ W) ∧
      ((selectFont fd fc fs W t).choice = .condensed ↔
        W < (getTextWidth t fd).1 ∧ (getTextWidth t fc).1 ≤ W) ∧
      ((selectFont fd fc fs W t).choice = .condensedSmall ↔
        W < (getTextWidth t fd).1 ∧ W < (getTextWidth t fc).1) ∧
      (selectFont fd fc fs W t).font
        = (selectFont fd fc fs W t).choice.pick fd fc fs ∧
      (selectFont fd fc fs W t).width
        = (getTextWidth t ((selectFont fd fc fs W t).choice.pick fd fc fs)).1 ∧
      (selectFont fd fc fs W t).text
        = (getTextWidth t ((selectFont fd fc fs W t).choice.pick fd fc fs)).2 := by
  rcases Nat.lt_or_ge W (getTextWidth t fd).1 with h0 | h0
  · rcases Nat.lt_or_ge W (getTextWidth t fc).1 with h1 | h1
    · simp only [selectFont, if_pos h0, if_pos h1]
      refine ⟨?_, ?_, ?_, rfl, rfl, rfl⟩
      · exact ⟨fun hh => absurd hh (by decide), fun hh => absurd hh (by omega)⟩
      · exact ⟨fun hh => absurd hh (by decide), fun hh => absurd hh.2 (by omega)⟩
      · exact ⟨fun _ => ⟨h0, h1⟩, fun _ => trivial⟩
    · simp only [selectFont, if_pos h0,
        if_neg (by omega : ¬ W < (getTextWidth t fc).1)]
      refine ⟨?_, ?_, ?_, rfl, rfl, rfl⟩
      · exact ⟨fun hh => absurd hh (by decide), fun hh => absurd hh (by omega)⟩
      · exact ⟨fun _ => ⟨h0, h1⟩, fun _ => trivial⟩
      · exact ⟨fun hh => absurd hh (by decide), fun hh => absurd hh.2 (by omega)⟩
  · simp only [selectFont, if_neg (by omega : ¬ W < (getTextWidth t fd).1)]
    refine ⟨?_, ?_, ?_, rfl, rfl, rfl⟩
    · exact ⟨fun _ => h0, fun _ => trivial⟩
    · exact ⟨fun hh => absurd hh (by decide), fun hh => absurd hh.1 (by omega)⟩
    · exact ⟨fun hh => absurd hh (by decide), fun hh => absurd hh.1 (by omega)⟩

/-- C5: the justification cursor of `print`.  `print` clamps the text width
to the area width before the switch, so `tw ≤ W` holds at the switch; under
that bound the `uint16_t` subtraction is exact and the division is a floor,
matching the integer formulas, and the spec's instance (area 100, text 40)
gives cursors 0, 30 and 60. -/
theorem justify_cursor_formulas (W tw : Nat) (h : tw ≤ W) :
    justifyCursor .Left W tw = 0 ∧
      (justifyCursor .Center W tw : Int) = ((W : Int) - tw) / 2 ∧
      (justifyCursor .Right W tw : Int) = (W : Int) - tw ∧
      (W = 100 → tw = 40 →
        justifyCursor .Left W tw = 0 ∧ justifyCursor .Center W tw = 30 ∧
          justifyCursor .Right W tw = 60) := by
  refine ⟨rfl, ?_, ?_, ?_⟩
  · show ((W - tw) / 2 : Nat) = ((W : Int) - tw) / 2
    omega
  · show ((W - tw : Nat) : Int) = (W : Int) - tw
    omega
  · intro hW htw
    subst hW; subst htw
    exact ⟨rfl, rfl, rfl⟩

theorem justify_cursor_formulas_witness :
    40 ≤ 100 ∧
      (justifyCursor .Left 100 40 = 0 ∧
        (justifyCursor .Center 100 40 : Int) = ((100 : Int) - 40) / 2 ∧
        (justifyCursor .Right 100 40 : Int) = (100 : Int) - 40 ∧
        (100 = 100 → 40 = 40 →
          justifyCursor .Left 100 40 = 0 ∧ justifyCursor .Center 100 40 = 30 ∧
            justifyCursor .Right 100 40 = 60)) :=
  ⟨by decide, justify_cursor_formulas 100 40 (by decide)⟩

/-- Value of a cell after the fill loop of `writeFillRectangle`. -/
theorem foldl_setPix_range (v : Nat) :
    ∀ (n : Nat) (b : Buf) (i : Nat),
      ((List.range n).foldl (fun b i => setPix b i v) b) i
        = if i < n then v else b i := by
  intro n
  induction n with
  | zero => intro b i; simp
  | succ m ih =>
    intro b i
    rw [List.range_succ, List.foldl_append]
    simp only [List.foldl_cons, List.foldl_nil]
    rw [setPix]
    rcases Nat.decEq i m with h | h
    · rw [if_neg h, ih]
      rcases Nat.lt_or_ge i m with hlt | hge
      · rw [if_pos hlt, if_pos (by omega)]
      · rw [if_neg (by omega), if_neg (by omega)]
    · rw [if_pos h, if_pos (by omega)]

/-- C8: the buffer-filling loop of `writeFillRectangle` is idempotent — a
second fill with the same geometry and color writes the same byte-swapped
color to the same `min(width * height, hardware_width * row_size)` cells —
and every written cell holds the byte-swapped color.  The bound
`hardware_width * row_size ≤ 65535` is the domain on which the `uint16_t`
loop counter of the source covers `len`. -/
theorem fill_rectangle_idempotent (hwWidth w h color : Nat) (buf : Buf)
    (_hhw : hwWidth * row_size ≤ 65535) :
    writeFillRectangle hwWidth (writeFillRectangle hwWidth buf w h color)
        w h color
      = writeFillRectangle hwWidth buf w h color ∧
    ∀ i, i < min (w * h) (hwWidth * row_size) →
      writeFillRectangle hwWidth buf w h color i = bswap16 color := by
  constructor
  · funext i
    rw [writeFillRectangle, writeFillRectangle, foldl_setPix_range,
      foldl_setPix_range]
    by_cases hi : i < min (w * h) (hwWidth * row_size) <;> simp [hi]
  · intro i hi
    rw [writeFillRectangle, foldl_setPix_range, if_pos hi]

theorem fill_rectangle_idempotent_witness :
    240 * row_size ≤ 65535 ∧
      (writeFillRectangle 240 (writeFillRectangle 240 zeroBuf 10 5 43981)
          10 5 43981
        = writeFillRectangle 240 zeroBuf 10 5 43981 ∧
      ∀ i, i < min (10 * 5) (240 * row_size) →
        writeFillRectangle 240 zeroBuf 10 5 43981 i = bswap16 43981) :=
  ⟨by decide, fill_rectangle_idempotent 240 10 5 43981 zeroBuf (by decide)⟩

theorem safeEvents_append :
    ∀ (xs : List Ev) (b : Bool) (ys : List Ev),
      safeEvents b (xs ++ ys)
        = (safeEvents b xs && safeEvents (busyAfter b xs) ys) := by
  intro xs
  induction xs with
  | nil => intro b ys; simp [safeEvents, busyAfter]
  | cons e rest ih =>
    intro b ys
    cases e with
    | drain => exact ih false ys
    | bufWrite =>
      show (!b && safeEvents b (rest ++ ys))
        = ((!b && safeEvents b rest) && safeEvents (busyAfter b rest) ys)
      rw [ih b ys, Bool.and_assoc]
    | setBusy => exact ih true ys

theorem safeEvents_replicate_bufWrite :
    ∀ n, safeEvents false (List.replicate n .bufWrite) = true := by
  intro n
  induction n with
  | zero => rfl
  | succ m ih => simpa [List.replicate_succ, safeEvents] using ih

theorem busyAfter_replicate_bufWrite :
    ∀ n b, busyAfter b (List.replicate n .bufWrite) = b := by
  intro n
  induction n with
  | zero => intro b; rfl
  | succ m ih => intro b; simpa [List.replicate_succ, busyAfter] using ih b

/-- Every single operation's event trace only writes the buffer with the
busy flag cleared, from any starting flag: each mutating call drains first. -/
theorem trace_safe (op : Op) (b : Bool) : safeEvents b (trace op) = true := by
  cases op with
  | printEmpty => rfl
  | print n =>
    simp [trace, safeEvents, safeEvents_append, safeEvents_replicate_bufWrite,
      busyAfter_replicate_bufWrite]
  | drawChar n =>
    simp [trace, safeEvents, safeEvents_replicate_bufWrite]
  | fillRect n =>
    simp [trace, safeEvents, safeEvents_append, safeEvents_replicate_bufWrite,
      busyAfter_replicate_bufWrite]
  | loop done => cases done <;> rfl
  | reset n =>
    simp [trace, safeEvents, safeEvents_replicate_bufWrite]

/-- C2: under the cooperative step semantics, for every sequence of
operations and every initial busy flag, every buffer mutation executes with
`busy = false`: `print`, `drawChar` and `fillRectangle` all drain the
in-flight transfer (`while (_busy) { yield(); loop(); }`) before their first
buffer write, and nothing marks the transfer busy again before the writes
finish. -/
theorem buffer_never_written_while_busy (ops : List Op) (b0 : Bool) :
    safeEvents b0 (List.flatten (ops.map trace)) = true := by
  induction ops generalizing b0 with
  | nil => rfl
  | cons op rest ih =>
    simp only [List.map_cons, List.flatten_cons]
    rw [safeEvents_append, trace_safe, Bool.true_and]
    exact ih _

/-- When every cumulative advance fits the area, the render loop of `print`
renders every character. -/
theorem renderText_all (font : Font) (W color : Nat) (hW : W ≤ 65535) :
    ∀ (t : List Nat) (cursor : Nat) (buf : Buf) (log : List Nat),
      cursor + sumAdv font t ≤ W →
      (renderText font W color t cursor buf log).2.2 = log ++ t := by
  intro t
  induction t with
  | nil => intro cursor buf log _; simp [renderText]
  | cons c rest ih =>
    intro cursor buf log h
    rw [sumAdv_cons] at h
    rw [renderText, if_neg (by omega : ¬ W < cursor + (font.getGlyph c).advance)]
    rw [Nat.mod_eq_of_lt (by omega : cursor + (font.getGlyph c).advance < 65536)]
    rw [ih _ _ _ (by omega)]
    simp

/-- The render loop first renders a fully fitting prefix, then continues from
the cursor advanced by the prefix's total advance. -/
theorem renderText_append_fits (font : Font) (W color : Nat) (hW : W ≤ 65535) :
    ∀ (init t2 : List Nat) (cursor : Nat) (buf : Buf) (log : List Nat),
      cursor + sumAdv font init ≤ W →
      ∃ buf2, renderText font W color (init ++ t2) cursor buf log
        = renderText font W color t2 (cursor + sumAdv font init) buf2 (log ++ init) := by
  intro init
  induction init with
  | nil =>
    intro t2 cursor buf log _
    exact ⟨buf, by simp [sumAdv]⟩
  | cons c rest ih =>
    intro t2 cursor buf log h
    rw [sumAdv_cons] at h
    rw [List.cons_append, renderText,
      if_neg (by omega : ¬ W < cursor + (font.getGlyph c).advance),
      Nat.mod_eq_of_lt (by omega : cursor + (font.getGlyph c).advance < 65536)]
    obtain ⟨buf2, hb⟩ := ih t2 (cursor + (font.getGlyph c).advance)
      (renderChar buf font W cursor baseline c color).1 (log ++ [c]) (by omega)
    refine ⟨buf2, ?_⟩
    rw [hb, sumAdv_cons]
    have : cursor + (font.getGlyph c).advance + sumAdv font rest
        = cursor + ((font.getGlyph c).advance + sumAdv font rest) := by omega
    rw [this]
    simp

/-- C4: the render loop of `print` stops exactly at the first glyph whose
`cursor + advance` exceeds the area width.  A text whose cumulative advances
never exceed the width — in particular one whose final cumulative sum equals
the width exactly — is rendered in full; if the cumulative sum at some
character reaches width + 1, that character and every following one are
dropped. -/
theorem render_stops_at_first_overflow (font : Font) (W color : Nat)
    (init : List Nat) (c : Nat) (rest : List Nat) (buf : Buf)
    (hW : W ≤ 65535) :
    (sumAdv font (init ++ c :: rest) ≤ W →
      (renderText font W color (init ++ c :: rest) 0 buf []).2.2
        = init ++ c :: rest) ∧
    (sumAdv font init ≤ W →
      sumAdv font init + (font.getGlyph c).advance = W + 1 →
      (renderText font W color (init ++ c :: rest) 0 buf []).2.2 = init) := by
  constructor
  · intro h
    exact renderText_all font W color hW _ 0 buf [] (by omega)
  · intro h1 h2
    obtain ⟨buf2, hb⟩ := renderText_append_fits font W color hW init (c :: rest)
      0 buf [] (by omega)
    rw [hb, renderText,
      if_pos (by omega : W < 0 + sumAdv font init + (font.getGlyph c).advance)]
    simp

theorem render_stops_at_first_overflow_witness :
    (sumAdv wideFont ([65] ++ 66 :: []) ≤ 100 ∧
      (renderText wideFont 100 7 ([65] ++ 66 :: []) 0 zeroBuf []).2.2
        = [65] ++ 66 :: []) ∧
    (sumAdv wideFont [65] ≤ 99 ∧
      sumAdv wideFont [65] + (wideFont.getGlyph 66).advance = 99 + 1 ∧
      (renderText wideFont 99 7 ([65] ++ 66 :: [67]) 0 zeroBuf []).2.2 = [65]) :=
  ⟨⟨by decide,
      (render_stops_at_first_overflow wideFont 100 7 [65] 66 [] zeroBuf
        (by decide)).1 (by decide)⟩,
    ⟨by decide, by decide,
      (render_stops_at_first_overflow wideFont 99 7 [65] 66 [67] zeroBuf
        (by decide)).2 (by decide) (by decide)⟩⟩

/-- The advance returned by `renderChar` is the glyph's advance. -/
theorem renderChar_snd (buf : Buf) (font : Font) (W x y c color : Nat) :
    (renderChar buf font W x y c color).2 = (font.getGlyph c).advance := rfl

/-- `drawChar` with the cursor at zero initializes the buffer, rasterizes at
the origin and leaves the cursor at the glyph's advance. -/
theorem drawChar_at_zero (fd : Font) (area : Area) (buf : Buf) (c1 : Nat)
    (hcur : area.cursor = 0) (ha1 : (fd.getGlyph c1).advance < 256) :
    drawChar fd ⟨area, buf⟩ c1
      = ⟨{ area with cursor := (fd.getGlyph c1).advance },
          (renderChar (initializeBuffer area buf) fd area.width 0 baseline c1
            area.foreground).1⟩ := by
  simp only [drawChar, hcur, if_pos, Nat.zero_add, renderChar_snd,
    Nat.mod_eq_of_lt (by omega : (fd.getGlyph c1).advance < 65536)]

/-- `drawChar` with a non-zero cursor rasterizes at the cursor without
touching the accumulated buffer. -/
theorem drawChar_at_pos (fd : Font) (area : Area) (buf : Buf) (c : Nat)
    (hcur : area.cursor ≠ 0) (hb : area.cursor + (fd.getGlyph c).advance < 65536) :
    drawChar fd ⟨area, buf⟩ c
      = ⟨{ area with cursor := area.cursor + (fd.getGlyph c).advance },
          (renderChar buf fd area.width area.cursor baseline c
            area.foreground).1⟩ := by
  simp only [drawChar, if_neg hcur, renderChar_snd, Nat.mod_eq_of_lt hb]

/-- `getTextWidth` on printable bytes: full pair form. -/
theorem getTextWidth_printable (font : Font) (s : List Nat)
    (hlen : s.length ≤ 255) (hp : ∀ c ∈ s, 32 ≤ c ∧ c ≤ 126) :
    getTextWidth s font = (sumAdv font s, s) := by
  rw [getTextWidth, getTextWidthAux_printable font s 0 false [] (by norm_num) hp]
  have := sumAdv_le font s
  rw [Nat.zero_add, Nat.mod_eq_of_lt (by omega), List.nil_append]

/-- `print` of a fitting three-character printable string with no trailing
space reduces to left-justified rendering of the three characters with the
default font into the freshly initialized buffer. -/
theorem printStr_printable3 (fd fc fs : Font) (area : Area) (buf : Buf)
    (c1 c2 c3 : Nat) (hj : area.justify = .Left)
    (h1 : 32 ≤ c1 ∧ c1 ≤ 126) (h2 : 32 ≤ c2 ∧ c2 ≤ 126) (h3 : 32 ≤ c3 ∧ c3 ≤ 126)
    (hsp : c3 ≠ 32)
    (hfit : sumAdv fd [c1, c2, c3] ≤ area.width) :
    (printStr fd fc fs area buf [c1, c2, c3]).buf
      = (renderText fd area.width area.foreground [c1, c2, c3] 0
          (initializeBuffer area buf) []).2.1 := by
  have h10 : c1 ≠ 0 := by omega
  have h20 : c2 ≠ 0 := by omega
  have h30 : c3 ≠ 0 := by omega
  have hs : strlen [c1, c2, c3] = 3 := by
    simp [strlen, h10, h20, h30]
  have hgw : getTextWidth [c1, c2, c3] fd = (sumAdv fd [c1, c2, c3], [c1, c2, c3]) :=
    getTextWidth_printable fd _ (by simp) (by
      intro c hc
      simp only [List.mem_cons, List.not_mem_nil, or_false] at hc
      rcases hc with rfl | rfl | rfl
      · exact h1
      · exact h2
      · exact h3)
  rw [printStr, hs]
  simp only [show (3 : Nat) % 256 = 3 from rfl]
  rw [if_neg (by omega : ¬ (3 : Nat) = 0)]
  simp only [show ¬ (32 : Nat) < 3 by omega, if_false]
  have hstrip : stripTrailing [c1, c2, c3] 3 = (3, false) := by
    simp [stripTrailing, hsp]
  rw [hstrip]
  simp only [List.take, selectFont, hgw]
  rw [if_neg (by omega : ¬ area.width < sumAdv fd [c1, c2, c3])]
  simp only []
  rw [if_neg (by omega : ¬ area.width < sumAdv fd [c1, c2, c3])]
  rw [hj]
  rfl

/-- The render loop on a fitting three-character text rasterizes the three
glyphs at cursors 0, `a1` and `a1 + a2`. -/
theorem renderText3 (font : Font) (W fg c1 c2 c3 : Nat) (buf : Buf)
    (hfit : (font.getGlyph c1).advance + (font.getGlyph c2).advance
      + (font.getGlyph c3).advance ≤ W) :
    (renderText font W fg [c1, c2, c3] 0 buf []).2.1
      = (renderChar (renderChar (renderChar buf font W 0 baseline c1 fg).1
          font W ((font.getGlyph c1).advance) baseline c2 fg).1
          font W ((font.getGlyph c1).advance + (font.getGlyph c2).advance)
          baseline c3 fg).1 := by
  have ha1 := advance_getGlyph_lt font c1
  have ha2 := advance_getGlyph_lt font c2
  have ha3 := advance_getGlyph_lt font c3
  rw [renderText, if_neg (by omega : ¬ W < 0 + (font.getGlyph c1).advance)]
  rw [Nat.zero_add, Nat.mod_eq_of_lt (by omega : (font.getGlyph c1).advance < 65536)]
  rw [renderText,
    if_neg (by omega : ¬ W < (font.getGlyph c1).advance + (font.getGlyph c2).advance)]
  rw [Nat.mod_eq_of_lt
    (by omega : (font.getGlyph c1).advance + (font.getGlyph c2).advance < 65536)]
  rw [renderText,
    if_neg (by omega : ¬ W < (font.getGlyph c1).advance + (font.getGlyph c2).advance
      + (font.getGlyph c3).advance)]
  rfl

/-- C6: three `drawChar` calls from cursor 0 produce the same offscreen
buffer as a single left-justified `print` of the three-character string,
when the characters are printable, the string does not end in a space (which
`print` would strip), the first glyph has a positive advance (so the second
`drawChar` does not re-initialize the buffer; every real glyph does), and
the cumulative default-font advances fit the area width (so `print` keeps
the default font and clips nothing). -/
theorem drawChar_thrice_eq_print (fd fc fs : Font) (area : Area) (buf : Buf)
    (c1 c2 c3 : Nat)
    (hj : area.justify = .Left) (hcur : area.cursor = 0)
    (h1 : 32 ≤ c1 ∧ c1 ≤ 126) (h2 : 32 ≤ c2 ∧ c2 ≤ 126) (h3 : 32 ≤ c3 ∧ c3 ≤ 126)
    (hsp : c3 ≠ 32)
    (hadv1 : 1 ≤ (fd.getGlyph c1).advance)
    (hfit : sumAdv fd [c1, c2, c3] ≤ area.width) :
    (drawChar fd (drawChar fd (drawChar fd ⟨area, buf⟩ c1) c2) c3).buf
      = (printStr fd fc fs area buf [c1, c2, c3]).buf := by
  have ha1 := advance_getGlyph_lt fd c1
  have ha2 := advance_getGlyph_lt fd c2
  have ha3 := advance_getGlyph_lt fd c3
  have hsum : sumAdv fd [c1, c2, c3]
      = (fd.getGlyph c1).advance + (fd.getGlyph c2).advance
        + (fd.getGlyph c3).advance := by
    simp [sumAdv]; omega
  rw [printStr_printable3 fd fc fs area buf c1 c2 c3 hj h1 h2 h3 hsp hfit]
  rw [renderText3 fd area.width area.foreground c1 c2 c3
    (initializeBuffer area buf) (by omega)]
  rw [drawChar_at_zero fd area buf c1 hcur ha1]
  rw [drawChar_at_pos fd _ _ c2 (by simp; omega) (by simp; omega)]
  rw [drawChar_at_pos fd _ _ c3 (by simp; omega) (by simp; omega)]

theorem drawChar_thrice_eq_print_witness :
    sampleArea.justify = .Left ∧ sampleArea.cursor = 0 ∧
      (32 ≤ 65 ∧ 65 ≤ 126) ∧ (32 ≤ 66 ∧ 66 ≤ 126) ∧ (32 ≤ 67 ∧ 67 ≤ 126) ∧
      (67 : Nat) ≠ 32 ∧ 1 ≤ (sampleFont.getGlyph 65).advance ∧
      sumAdv sampleFont [65, 66, 67] ≤ sampleArea.width ∧
      (drawChar sampleFont (drawChar sampleFont (drawChar sampleFont
          ⟨sampleArea, zeroBuf⟩ 65) 66) 67).buf
        = (printStr sampleFont sampleFont sampleFont sampleArea zeroBuf
            [65, 66, 67]).buf :=
  ⟨rfl, rfl, by decide, by decide, by decide, by decide, by decide, by decide,
    drawChar_thrice_eq_print sampleFont sampleFont sampleFont sampleArea zeroBuf
      65 66 67 rfl rfl (by decide) (by decide) (by decide) (by decide)
      (by decide) (by decide)⟩

end V2Display
